import Mathlib

/-!
Verification of the kmc_ising repository: a kinetic Monte Carlo simulator for a
one-dimensional Ising ring (src/algorithm.py), a process scheduler
(src/core.py) and supporting CSV extraction and notification classes
(src/supporting_tools.py).  Every definition below is a shallow embedding of
the corresponding Python function; floats are modelled as real numbers, the
CSV field values as rationals or literal tokens, and random draws as explicit
oracle sequences.
-/

namespace Kmc

/-- A single comma-separated field of an input row: either a numeric value or
a literal token such as "random" or "uniform". -/
inductive CsvField where
  | num (x : ℚ)
  | tok (s : String)
deriving DecidableEq

/-- Python float(field): succeeds exactly on numeric fields
(a ValueError on a token is modelled as none). -/
def parseFloat : CsvField → Option ℚ
  | CsvField.num x => some x
  | CsvField.tok _ => none

/-- Python int(field): succeeds exactly on integral numeric fields. -/
def parseInt : CsvField → Option ℤ
  | CsvField.num x => if x.den = 1 then some x.num else none
  | CsvField.tok _ => none

/-- The parameter dictionary built by extract_parameter_sequence:
row number, J, B, N and the raw spin-spec fields row[3:]. -/
structure ParamRec where
  num : ℕ
  J : ℚ
  B : ℚ
  N : ℤ
  S : List CsvField
deriving DecidableEq

/-- Result of processing one row in extract_parameter_sequence: a full
record, the malformed-row marker (the bare 1-based row number yielded on an
IndexError), or an uncaught exception (ValueError from float/int). -/
inductive RowResult where
  | record (r : ParamRec)
  | marker (n : ℕ)
  | crash
deriving DecidableEq

/-- One iteration of extract_parameter_sequence (supporting_tools.py lines
62-76): the try block evaluates float(row[0]), float(row[1]), int(row[2]),
row[3:] in order; an IndexError yields the row counter, while a ValueError
propagates (crash). -/
def extractRow (counter : ℕ) (row : List CsvField) : RowResult :=
  match row with
  | [] => RowResult.marker counter
  | [a] =>
    match parseFloat a with
    | some _ => RowResult.marker counter
    | none => RowResult.crash
  | [a, b] =>
    match parseFloat a, parseFloat b with
    | some _, some _ => RowResult.marker counter
    | _, _ => RowResult.crash
  | a :: b :: c :: s =>
    match parseFloat a, parseFloat b, parseInt c with
    | some j, some bb, some n => RowResult.record ⟨counter, j, bb, n, s⟩
    | _, _, _ => RowResult.crash

/-- The whole generator extract_parameter_sequence over the tokenized rows of
the file, with 1-based row counters. -/
def extractParameterSequence (rows : List (List CsvField)) : List RowResult :=
  (List.range rows.length).map fun i => extractRow (i + 1) (rows.getD i [])

/-- A queued notification or error record; fatal is False for plain
notifications and the constructor argument for errors. -/
structure NotifRecord where
  task_end : Bool
  for_verbose : Bool
  fatal : Bool
deriving DecidableEq

/-- Notification.__init__(task_end, for_verbose): fatal is not a field of a
plain notification, modelled as false. -/
def mkNotification (te fv : Bool) : NotifRecord :=
  ⟨te, fv, false⟩

/-- Error.__init__(fatal, task_end): calls Notification.__init__ with
for_verbose left at its default False, then stores fatal. -/
def mkErrorRecord (fatal te : Bool) : NotifRecord :=
  ⟨te, false, fatal⟩

/-- The error record built in KmcIsing._generate_state for a sequence-length
mismatch (algorithm.py lines 133-136): task_end=True and fatal left at its
default False. -/
def seqLenErrorRecord : NotifRecord := mkErrorRecord false true

/-- The error record built in Core.start for a malformed row (core.py lines
148-150): task_end=True and fatal left at its default False. -/
def rowFormatErrorRecord : NotifRecord := mkErrorRecord false true

/-- Error.output terminates the process exactly when the record is fatal. -/
def outputHalts (r : NotifRecord) : Bool := r.fatal

/-- Effect of one iteration of Core._notification_handler on a drained
record. -/
structure HandlerResult where
  printed : Bool
  halted : Bool
  counter : ℤ
  eventSet : Bool
deriving DecidableEq

/-- One iteration of Core._notification_handler (core.py lines 184-197): the
record is printed when verbose mode is on or the record is not
verbosity-gated; output exits only for a fatal record; a task-end record
decrements the counter, and the unblocking event is set when the counter has
dropped to at most 4. -/
def handlerStep (verbose : Bool) (counter : ℤ) (r : NotifRecord) : HandlerResult :=
  let printed := verbose || !r.for_verbose
  let counter2 := if r.task_end then counter - 1 else counter
  { printed := printed
    halted := printed && r.fatal
    counter := counter2
    eventSet := r.task_end && decide (counter2 ≤ 4) }

/-- What the dispatch loop in Core.start does with one consumed row. -/
inductive DispatchAction where
  | launched (r : ParamRec)
  | rowError (n : ℕ)
  | waited
deriving DecidableEq

/-- The dispatch loop of Core.start (core.py lines 143-159): for each yielded
item, if the process counter is at most the capacity it is incremented and
the item is either reported as a row-format error (marker) or launched
(record); otherwise the loop clears the event, waits (the counter afterwards
is supplied by the oracle, modelling concurrent decrements) and moves on to
the NEXT item — the current item is consumed by the for loop without being
dispatched. -/
def coreStart (cap : ℕ) (oracle : ℕ → ℕ) :
    List RowResult → ℕ → ℕ → List DispatchAction
  | [], _, _ => []
  | item :: rest, counter, k =>
    if counter ≤ cap then
      match item with
      | RowResult.record r =>
        DispatchAction.launched r :: coreStart cap oracle rest (counter + 1) k
      | RowResult.marker n =>
        DispatchAction.rowError n :: coreStart cap oracle rest (counter + 1) k
      | RowResult.crash => []
    else
      DispatchAction.waited :: coreStart cap oracle rest (oracle k) (k + 1)

/-- Result of KmcIsing._generate_state: a chain, the sequence-length error
path, or an uncaught exception (IndexError on an empty spin-spec, ValueError
on an unparseable explicit entry). -/
inductive GenResult where
  | ok (s : List ℤ)
  | seqLenError
  | crash
deriving DecidableEq

/-- KmcIsing._generate_state (algorithm.py lines 108-139): S[0] selects the
branch; "random" appends N oracle draws; "uniform" appends 1 per site when
B > 0, -1 per site when B < 0 and nothing when B = 0; otherwise every field
of S is parsed with int() and the resulting sequence is rejected with a
sequence-length error when its length differs from N. -/
def generateState (B : ℚ) (N : ℤ) (S : List CsvField) (draws : ℕ → ℤ) : GenResult :=
  match S with
  | [] => GenResult.crash
  | f :: _ =>
    if f = CsvField.tok "random" then
      GenResult.ok ((List.range N.toNat).map draws)
    else if f = CsvField.tok "uniform" then
      GenResult.ok
        (if 0 < B then List.replicate N.toNat 1
         else if B < 0 then List.replicate N.toNat (-1)
         else [])
    else
      match S.mapM parseInt with
      | none => GenResult.crash
      | some seq =>
        if seq.length = N.toNat then GenResult.ok seq else GenResult.seqLenError

/-- KmcIsing._change_spin (algorithm.py lines 221-222): overwrite the chosen
site with a freshly drawn spin. -/
def changeSpin (s : List ℤ) (j : ℕ) (v : ℤ) : List ℤ := s.set j v

/-- The spin of site i as a real number (Python reads self._state[i]). -/
def sg (s : List ℤ) (i : ℕ) : ℝ := ((s.getD i 0 : ℤ) : ℝ)

/-- The local energy u_ikt of site i computed by _count_partial_sums
(algorithm.py lines 153-170): the first site reads state[-1] and state[1],
the last site reads state[-2] and state[0], every other site reads its two
direct neighbours; each branch also subtracts state[i]*B. -/
noncomputable def uSite (J B : ℝ) (s : List ℤ) (i : ℕ) : ℝ :=
  if i = 0 then
    -J / 2 * (sg s 0 * sg s (s.length - 1) + sg s 0 * sg s 1) - sg s 0 * B
  else if i = s.length - 1 then
    -J / 2 * (sg s (s.length - 1) * sg s (s.length - 2) +
      sg s (s.length - 1) * sg s 0) - sg s (s.length - 1) * B
  else
    -J / 2 * (sg s i * sg s (i - 1) + sg s i * sg s (i + 1)) - sg s i * B

/-- The unnormalized rate weight math.exp(u_ikt) of site i. -/
noncomputable def wSite (J B : ℝ) (s : List ℤ) (i : ℕ) : ℝ :=
  Real.exp (uSite J B s i)

/-- Entry i of the partial-sum array after the loop of _count_partial_sums has
run from index start: entries below start keep their previous value, index 0
(reachable only when start = 0) is overwritten with the bare weight, and every
later recomputed entry adds its weight to the entry below it. -/
noncomputable def psEntry (J B : ℝ) (s : List ℤ) (prev : List ℝ) (start : ℕ) :
    ℕ → ℝ
  | 0 => if 0 < start then prev.getD 0 0 else wSite J B s 0
  | i + 1 =>
    if i + 1 < start then prev.getD (i + 1) 0
    else wSite J B s (i + 1) + psEntry J B s prev start i

/-- KmcIsing._count_partial_sums (algorithm.py lines 143-171) as a function
from the previous array to the new array of length len(state). -/
noncomputable def countPartialSums (J B : ℝ) (s : List ℤ) (prev : List ℝ)
    (start : ℕ) : List ℝ :=
  (List.range s.length).map (psEntry J B s prev start)

/-- The start index chosen at the top of _count_partial_sums (lines 147-150):
0 when no molecule was chosen yet or molecule 0 was chosen, otherwise the
chosen index minus one. -/
def startIndex (chosen : Option ℕ) : ℕ :=
  match chosen with
  | none => 0
  | some j => if j = 0 then 0 else j - 1

/-- KmcIsing._count_r (algorithm.py line 179): the last partial sum. -/
noncomputable def countR (t : List ℝ) : ℝ := t.getD (t.length - 1) 0

/-- Python int() applied to a real: truncation toward zero. -/
noncomputable def pyInt (x : ℝ) : ℤ := if 0 ≤ x then ⌊x⌋ else ⌈x⌉

/-- KmcIsing._count_delta_t (algorithm.py line 195):
1/r * int(math.log(1/p)). -/
noncomputable def countDeltaT (r p : ℝ) : ℝ :=
  1 / r * ((pyInt (Real.log (1 / p)) : ℤ) : ℝ)

/-- KmcIsing._add_to_t (algorithm.py lines 211-217), with the None
initialization folded into a starting value of 0. -/
def addToT (t d : ℝ) : ℝ := t + d

/-- KmcIsing._choose_molecule (algorithm.py lines 199-207): a scan over all
indices in which the chosen value is overwritten by every index whose
condition fires; index 0 fires when p*r < t[0], every other index i fires
when t[i-1] <= p*r < t[i]; the elif tested at index 0 reads t[-1], the last
entry, exactly as the Python negative index does. -/
noncomputable def chooseMolecule (t : List ℝ) (x : ℝ) (init : Option ℕ) :
    Option ℕ :=
  (List.range t.length).foldl
    (fun acc i =>
      if i = 0 then
        if x < t.getD 0 0 then some 0
        else if t.getD (t.length - 1) 0 ≤ x ∧ x < t.getD 0 0 then some 0
        else acc
      else if t.getD (i - 1) 0 ≤ x ∧ x < t.getD i 0 then some i
      else acc)
    init

/-- The entry the selection claim compares against from below: RateTable[j-1]
with RateTable[-1] read as 0. -/
noncomputable def prevEntry (t : List ℝ) (j : ℕ) : ℝ :=
  if j = 0 then 0 else t.getD (j - 1) 0

/-- The condition under which iteration i of the _choose_molecule scan
overwrites the chosen index: the if branch at index 0, or the elif branch
(which at index 0 reads the last entry through the Python index -1). -/
def fireCond (t : List ℝ) (x : ℝ) (i : ℕ) : Prop :=
  if i = 0 then
    x < t.getD 0 0 ∨ (t.getD (t.length - 1) 0 ≤ x ∧ x < t.getD 0 0)
  else
    t.getD (i - 1) 0 ≤ x ∧ x < t.getD i 0

/-- The pairwise interaction term of site i accumulated by _add_to_jt
(algorithm.py lines 233-258): the same neighbour pattern as uSite but without
the field term. -/
noncomputable def interTerm (J : ℝ) (s : List ℤ) (i : ℕ) : ℝ :=
  if i = 0 then
    -J / 2 * (sg s 0 * sg s (s.length - 1) + sg s 0 * sg s 1)
  else if i = s.length - 1 then
    -J / 2 * (sg s (s.length - 1) * sg s (s.length - 2) +
      sg s (s.length - 1) * sg s 0)
  else
    -J / 2 * (sg s i * sg s (i - 1) + sg s i * sg s (i + 1))

/-- The total pairwise interaction summed by _add_to_jt. -/
noncomputable def interSum (J : ℝ) (s : List ℤ) : ℝ :=
  ((List.range s.length).map (interTerm J s)).sum

/-- The mutable per-task state of KmcIsing during run(). -/
structure SimState where
  state : List ℤ
  table : List ℝ
  chosen : Option ℕ
  t : ℝ
  mt : ℝ
  jt : ℝ

/-- The state at the top of the event loop of run() (algorithm.py lines
86-87): the generated chain, the partial-sum array initialized to a copy of
the state, no chosen molecule, and the three accumulators at 0 (t, mt, jt
start as None and become 0 at their first accumulation). -/
noncomputable def initSimState (s : List ℤ) : SimState :=
  ⟨s, s.map fun z => ((z : ℤ) : ℝ), none, 0, 0, 0⟩

/-- One iteration of the event loop of KmcIsing.run (algorithm.py lines
88-97): recompute the partial sums from the incremental start index, read r,
draw p, compute delta_t, choose the molecule (crash when no molecule was ever
chosen, mirroring state[None]), resample the chosen spin with the draw v, and
accumulate t, mt and jt over the post-flip state. -/
noncomputable def simStep (J B p : ℝ) (v : ℤ) (st : SimState) :
    Option SimState :=
  let table := countPartialSums J B st.state st.table (startIndex st.chosen)
  let r := countR table
  let d := countDeltaT r p
  match chooseMolecule table (p * r) st.chosen with
  | none => none
  | some j =>
    let s2 := changeSpin st.state j v
    some
      { state := s2
        table := table
        chosen := some j
        t := addToT st.t d
        mt := st.mt + ((s2.sum : ℤ) : ℝ) * d
        jt := st.jt + interSum J s2 * d }

/-- The event loop of run() for a given number of remaining steps, threading
the event index k through the oracles for p and for the resampled spin. -/
noncomputable def runSim (J B : ℝ) (ps : ℕ → ℝ) (vs : ℕ → ℤ) :
    ℕ → ℕ → SimState → Option SimState
  | _, 0, st => some st
  | k, n + 1, st =>
    match simStep J B (ps k) (vs k) st with
    | none => none
    | some st2 => runSim J B ps vs (k + 1) n st2

/-- The two averages reported at the end of run() (algorithm.py lines
101-102): jt/t and mt/t. -/
noncomputable def report (st : SimState) : ℝ × ℝ :=
  (st.jt / st.t, st.mt / st.t)

/-- Folding spin resamplings over a chain never changes its length. -/
theorem changeSpin_foldl_length (updates : List (ℕ × ℤ)) :
    ∀ s : List ℤ,
      (updates.foldl (fun c u => changeSpin c u.1 u.2) s).length = s.length := by
  induction updates with
  | nil => intro s; rfl
  | cons u rest ih =>
    intro s
    simpa [changeSpin] using ih (changeSpin s u.1 u.2)

/-- A spin-spec whose every field survives int() consists of numeric fields,
so its head is neither the random nor the uniform token and generateState
takes the explicit branch. -/
theorem generateState_explicit (B : ℚ) (N : ℤ) (f : CsvField)
    (rest : List CsvField) (draws : ℕ → ℤ) (seq : List ℤ)
    (hparse : (f :: rest).mapM parseInt = some seq) :
    generateState B N (f :: rest) draws =
      if seq.length = N.toNat then GenResult.ok seq else GenResult.seqLenError := by
  obtain x | s := f
  · have h1 : CsvField.num x ≠ CsvField.tok "random" := by simp
    have h2 : CsvField.num x ≠ CsvField.tok "uniform" := by simp
    simp only [generateState, if_neg h1, if_neg h2, hparse]
  · exfalso
    rw [List.mapM_cons] at hparse
    simp [parseInt] at hparse

/-- C2: the claim says a record arriving while the scheduler is at capacity is
still dispatched after the scheduler unblocks.  In the code the at-capacity
branch only waits, and the for loop then consumes the next row, so the record
is silently dropped: with capacity 1, counter already 1 and two valid records,
the second record is neither launched nor reported. -/
theorem c2_capacity_block_drops_record :
    coreStart 1 (fun _ => 0)
        [RowResult.record ⟨1, 1, 0, 2, []⟩, RowResult.record ⟨2, 1, 0, 2, []⟩] 1 0
      = [DispatchAction.launched ⟨1, 1, 0, 2, []⟩, DispatchAction.waited]
    ∧ DispatchAction.launched ⟨2, 1, 0, 2, []⟩ ∉
        coreStart 1 (fun _ => 0)
          [RowResult.record ⟨1, 1, 0, 2, []⟩, RowResult.record ⟨2, 1, 0, 2, []⟩] 1 0
    ∧ DispatchAction.rowError 2 ∉
        coreStart 1 (fun _ => 0)
          [RowResult.record ⟨1, 1, 0, 2, []⟩, RowResult.record ⟨2, 1, 0, 2, []⟩] 1 0 := by
  refine ⟨by decide, by decide, by decide⟩

/-- C3 counterexample: the claim says a row with exactly three fields yields
the malformed-row marker; in the code row[3:] on a three-field row is just
the empty list, no IndexError is raised, and a full record with an empty
spin-spec is produced. -/
theorem c3_three_field_row_yields_record :
    extractRow 1 [CsvField.num 1, CsvField.num 0, CsvField.num 4]
      = RowResult.record ⟨1, 1, 0, 4, []⟩
    ∧ extractRow 1 [CsvField.num 1, CsvField.num 0, CsvField.num 4]
      ≠ RowResult.marker 1 := by
  refine ⟨by decide, by decide⟩

/-- C3 amended: extraction yields the malformed-row marker (carrying the
1-based row number) exactly when the row has fewer than THREE fields (given
that the fields actually present parse); a row with three or more parseable
fields yields a full record whose spin-spec is the fields from index 3 on;
and on a marker the scheduler below capacity emits the non-fatal task-end
row-format error record and continues with the next row. -/
theorem c3_marker_iff_fewer_than_three_fields (n : ℕ) (row : List CsvField)
    (hf : ∀ f ∈ row.take 2, (parseFloat f).isSome)
    (hi : ∀ f ∈ (row.drop 2).take 1, (parseInt f).isSome) :
    (extractRow n row = RowResult.marker n ↔ row.length < 3)
    ∧ (3 ≤ row.length →
        ∃ r : ParamRec, extractRow n row = RowResult.record r
          ∧ r.num = n ∧ r.S = row.drop 3)
    ∧ rowFormatErrorRecord.fatal = false
    ∧ rowFormatErrorRecord.task_end = true
    ∧ ∀ (cap counter k m : ℕ) (oracle : ℕ → ℕ) (rest : List RowResult),
        counter ≤ cap →
        coreStart cap oracle (RowResult.marker m :: rest) counter k
          = DispatchAction.rowError m :: coreStart cap oracle rest (counter + 1) k := by
  refine ⟨?_, ?_, rfl, rfl, ?_⟩
  · rcases row with _ | ⟨a, _ | ⟨b, _ | ⟨c, s⟩⟩⟩
    · simp [extractRow]
    · obtain ⟨qa, ha⟩ := Option.isSome_iff_exists.mp (hf a (by simp))
      simp [extractRow, ha]
    · obtain ⟨qa, ha⟩ := Option.isSome_iff_exists.mp (hf a (by simp))
      obtain ⟨qb, hb⟩ := Option.isSome_iff_exists.mp (hf b (by simp))
      simp [extractRow, ha, hb]
    · obtain ⟨qa, ha⟩ := Option.isSome_iff_exists.mp (hf a (by simp))
      obtain ⟨qb, hb⟩ := Option.isSome_iff_exists.mp (hf b (by simp))
      obtain ⟨qc, hc⟩ := Option.isSome_iff_exists.mp (hi c (by simp))
      simp [extractRow, ha, hb, hc]
  · intro hlen
    rcases row with _ | ⟨a, _ | ⟨b, _ | ⟨c, s⟩⟩⟩
    · simp at hlen
    · simp at hlen
    · simp at hlen
    · obtain ⟨qa, ha⟩ := Option.isSome_iff_exists.mp (hf a (by simp))
      obtain ⟨qb, hb⟩ := Option.isSome_iff_exists.mp (hf b (by simp))
      obtain ⟨qc, hc⟩ := Option.isSome_iff_exists.mp (hi c (by simp))
      exact ⟨⟨n, qa, qb, qc, s⟩, by simp [extractRow, ha, hb, hc], rfl, rfl⟩
  · intro cap counter k m oracle rest hc
    simp [coreStart, hc]

/-- C3 witness: a concrete two-field row is reported as a marker and a
below-capacity scheduler turns a marker into a row-format error and keeps
going. -/
theorem c3_marker_iff_fewer_than_three_fields_witness :
    (∀ f ∈ ([CsvField.num 1, CsvField.num 2] : List CsvField).take 2,
        (parseFloat f).isSome)
    ∧ (∀ f ∈ (([CsvField.num 1, CsvField.num 2] : List CsvField).drop 2).take 1,
        (parseInt f).isSome)
    ∧ ((extractRow 7 [CsvField.num 1, CsvField.num 2] = RowResult.marker 7
          ↔ ([CsvField.num 1, CsvField.num 2] : List CsvField).length < 3)
        ∧ (3 ≤ ([CsvField.num 1, CsvField.num 2] : List CsvField).length →
            ∃ r : ParamRec,
              extractRow 7 [CsvField.num 1, CsvField.num 2] = RowResult.record r
                ∧ r.num = 7
                ∧ r.S = ([CsvField.num 1, CsvField.num 2] : List CsvField).drop 3)
        ∧ rowFormatErrorRecord.fatal = false
        ∧ rowFormatErrorRecord.task_end = true
        ∧ ∀ (cap counter k m : ℕ) (oracle : ℕ → ℕ) (rest : List RowResult),
            counter ≤ cap →
            coreStart cap oracle (RowResult.marker m :: rest) counter k
              = DispatchAction.rowError m ::
                  coreStart cap oracle rest (counter + 1) k) :=
  ⟨by decide, by decide,
    c3_marker_iff_fewer_than_three_fields 7 [CsvField.num 1, CsvField.num 2]
      (by decide) (by decide)⟩

/-- C4 counterexample: the claim includes spin-spec "uniform" with B = 0, but
in that case _generate_state appends nothing at all and the chain is empty
rather than of length N. -/
theorem c4_uniform_zero_field_empty_chain :
    generateState 0 4 [CsvField.tok "uniform"] (fun _ => 1) = GenResult.ok []
    ∧ (List.length ([] : List ℤ) ≠ (4 : ℤ).toNat) := by
  refine ⟨by decide, by decide⟩

/-- C4 amended: for every valid record whose spin-spec is "random", "uniform"
with a NONZERO field, or an explicit parseable sequence of length N, the
generated chain has length exactly N, and any sequence of per-event spin
resamplings preserves that length. -/
theorem c4_chain_length_invariant (B : ℚ) (N : ℤ) (S : List CsvField)
    (draws : ℕ → ℤ) (hN : 0 < N)
    (hspec :
      (∃ rest, S = CsvField.tok "random" :: rest)
      ∨ ((∃ rest, S = CsvField.tok "uniform" :: rest) ∧ B ≠ 0)
      ∨ (∃ seq : List ℤ,
          S.mapM parseInt = some seq ∧ seq.length = N.toNat ∧ S ≠ [])) :
    ∃ s : List ℤ, generateState B N S draws = GenResult.ok s
      ∧ s.length = N.toNat
      ∧ ∀ updates : List (ℕ × ℤ),
          (updates.foldl (fun c u => changeSpin c u.1 u.2) s).length = N.toNat := by
  rcases hspec with ⟨rest, hS⟩ | ⟨⟨rest, hS⟩, hB⟩ | ⟨seq, hparse, hlen, hne⟩
  · subst hS
    refine ⟨(List.range N.toNat).map draws, by simp [generateState], by simp, ?_⟩
    intro updates
    rw [changeSpin_foldl_length]
    simp
  · subst hS
    rcases lt_or_gt_of_ne hB with hb | hb
    · refine ⟨List.replicate N.toNat (-1), ?_, by simp, ?_⟩
      · simp [generateState, hb, not_lt.mpr hb.le]
      · intro updates
        rw [changeSpin_foldl_length]
        simp
    · refine ⟨List.replicate N.toNat 1, ?_, by simp, ?_⟩
      · simp [generateState, hb]
      · intro updates
        rw [changeSpin_foldl_length]
        simp
  · obtain _ | ⟨f, rest⟩ := S
    · exact absurd rfl hne
    · refine ⟨seq, ?_, hlen, ?_⟩
      · rw [generateState_explicit B N f rest draws seq hparse, if_pos hlen]
      · intro updates
        rw [changeSpin_foldl_length, hlen]

/-- C4 witness: a concrete uniform record with B = 1 and N = 2 yields a chain
of length 2 that stays of length 2 under resampling. -/
theorem c4_chain_length_invariant_witness :
    (0 : ℤ) < 2
    ∧ ∃ s : List ℤ,
        generateState 1 2 [CsvField.tok "uniform"] (fun _ => 1) = GenResult.ok s
        ∧ s.length = (2 : ℤ).toNat
        ∧ ∀ updates : List (ℕ × ℤ),
            (updates.foldl (fun c u => changeSpin c u.1 u.2) s).length
              = (2 : ℤ).toNat :=
  ⟨by decide,
    c4_chain_length_invariant 1 2 [CsvField.tok "uniform"] (fun _ => 1)
      (by decide) (Or.inr (Or.inl ⟨⟨[], rfl⟩, by norm_num⟩))⟩

/-- C5 counterexample: at a concrete explicit sequence of length 2 with N = 3
the code takes the sequence-length error path, but the record it emits has
fatal = False (the Error constructor is called without fatal), so Error.output
does not terminate the process and the consumer does not halt; the claim said
the record is processed as fatal for the whole run. -/
theorem c5_sequence_length_error_not_fatal :
    generateState 1 3 [CsvField.num 1, CsvField.num (-1)] (fun _ => 1)
      = GenResult.seqLenError
    ∧ seqLenErrorRecord.fatal = false
    ∧ outputHalts seqLenErrorRecord = false
    ∧ (handlerStep true 5 seqLenErrorRecord).halted = false := by
  refine ⟨by decide, rfl, rfl, rfl⟩

/-- C5 amended: a sequence-length mismatch makes _generate_state emit a
task-end, NON-fatal error record (and exit only the child process running the
task): the consumer prints it, does not halt the run, and decrements the
active-task counter, so only the offending task ends. -/
theorem c5_sequence_length_error_task_scoped (B : ℚ) (N : ℤ)
    (S : List CsvField) (draws : ℕ → ℤ) (seq : List ℤ)
    (hparse : S.mapM parseInt = some seq)
    (hne : S ≠ [])
    (hlen : seq.length ≠ N.toNat) :
    generateState B N S draws = GenResult.seqLenError
    ∧ seqLenErrorRecord.task_end = true
    ∧ seqLenErrorRecord.fatal = false
    ∧ ∀ (v : Bool) (c : ℤ),
        (handlerStep v c seqLenErrorRecord).halted = false
        ∧ (handlerStep v c seqLenErrorRecord).printed = true
        ∧ (handlerStep v c seqLenErrorRecord).counter = c - 1 := by
  obtain _ | ⟨f, rest⟩ := S
  · exact absurd rfl hne
  · refine ⟨?_, rfl, rfl, ?_⟩
    · rw [generateState_explicit B N f rest draws seq hparse, if_neg hlen]
    · intro v c
      refine ⟨?_, ?_, rfl⟩
      · cases v <;> rfl
      · cases v <;> rfl

/-- C5 witness: concrete mismatch, sequence [1] against N = 3. -/
theorem c5_sequence_length_error_task_scoped_witness :
    ([CsvField.num 1] : List CsvField).mapM parseInt = some [1]
    ∧ ([CsvField.num 1] : List CsvField) ≠ []
    ∧ ([(1 : ℤ)] : List ℤ).length ≠ (3 : ℤ).toNat
    ∧ (generateState 0 3 [CsvField.num 1] (fun _ => 1) = GenResult.seqLenError
        ∧ seqLenErrorRecord.task_end = true
        ∧ seqLenErrorRecord.fatal = false
        ∧ ∀ (v : Bool) (c : ℤ),
            (handlerStep v c seqLenErrorRecord).halted = false
            ∧ (handlerStep v c seqLenErrorRecord).printed = true
            ∧ (handlerStep v c seqLenErrorRecord).counter = c - 1) :=
  ⟨by decide, by decide, by decide,
    c5_sequence_length_error_task_scoped 0 3 [CsvField.num 1] (fun _ => 1) [1]
      (by decide) (by decide) (by decide)⟩

/-- C9: the consumer prints a drained record exactly when verbose mode is on
or the record is not verbosity-gated; every error record is constructed with
for_verbose = False, so error records are printed under every verbosity
setting. -/
theorem c9_print_iff_verbose_or_not_gated :
    (∀ (v : Bool) (c : ℤ) (r : NotifRecord),
        (handlerStep v c r).printed = true ↔ (v = true ∨ r.for_verbose = false))
    ∧ (∀ fatal te : Bool, (mkErrorRecord fatal te).for_verbose = false)
    ∧ ∀ (v : Bool) (c : ℤ) (fatal te : Bool),
        (handlerStep v c (mkErrorRecord fatal te)).printed = true := by
  refine ⟨?_, ?_, ?_⟩
  · intro v c r
    cases v <;> cases hr : r.for_verbose <;> simp [handlerStep, hr]
  · intro fatal te
    rfl
  · intro v c fatal te
    cases v <;> rfl

/-- The partial-sum array has the same length as the chain. -/
theorem countPartialSums_length (J B : ℝ) (s : List ℤ) (prev : List ℝ)
    (start : ℕ) : (countPartialSums J B s prev start).length = s.length := by
  simp [countPartialSums]

/-- Reading entry i of the partial-sum array within bounds gives psEntry i. -/
theorem countPartialSums_getD (J B : ℝ) (s : List ℤ) (prev : List ℝ)
    (start : ℕ) (i : ℕ) (h : i < s.length) :
    (countPartialSums J B s prev start).getD i 0
      = psEntry J B s prev start i := by
  unfold countPartialSums
  rw [List.getD_eq_getElem _ _ (by simpa using h)]
  simp

/-- A previous array that is strictly increasing below start and positive at
entry 0 is positive at every entry below start. -/
theorem prevGetD_pos (prev : List ℝ) (start : ℕ)
    (hprev : ∀ i, i + 1 < start → prev.getD i 0 < prev.getD (i + 1) 0)
    (hprev0 : 0 < start → 0 < prev.getD 0 0) :
    ∀ i, i < start → 0 < prev.getD i 0 := by
  intro i
  induction i with
  | zero => exact hprev0
  | succ i ih => exact fun h => (ih (by omega)).trans (hprev i h)

/-- Every entry of the recomputed partial-sum array is positive. -/
theorem psEntry_pos (J B : ℝ) (s : List ℤ) (prev : List ℝ) (start : ℕ)
    (hprev : ∀ i, i + 1 < start → prev.getD i 0 < prev.getD (i + 1) 0)
    (hprev0 : 0 < start → 0 < prev.getD 0 0) :
    ∀ i, 0 < psEntry J B s prev start i := by
  intro i
  induction i with
  | zero =>
    by_cases h : 0 < start
    · simpa [psEntry, h] using hprev0 h
    · simp [psEntry, h, wSite, Real.exp_pos]
  | succ i ih =>
    by_cases h : i + 1 < start
    · simpa [psEntry, h] using prevGetD_pos prev start hprev hprev0 (i + 1) h
    · simpa [psEntry, h] using add_pos (by simp [wSite, Real.exp_pos]) ih

/-- Consecutive entries of the recomputed partial-sum array are strictly
increasing: either both are untouched previous entries, or the larger one
adds a positive exponential weight to the smaller one. -/
theorem psEntry_strict (J B : ℝ) (s : List ℤ) (prev : List ℝ) (start : ℕ)
    (hprev : ∀ i, i + 1 < start → prev.getD i 0 < prev.getD (i + 1) 0) :
    ∀ i, psEntry J B s prev start i < psEntry J B s prev start (i + 1) := by
  intro i
  by_cases h : i + 1 < start
  · have hi : i < start := by omega
    have hL : psEntry J B s prev start i = prev.getD i 0 := by
      cases i with
      | zero => simp [psEntry, hi]
      | succ m => simp [psEntry, hi]
    have hR : psEntry J B s prev start (i + 1) = prev.getD (i + 1) 0 := by
      simp [psEntry, h]
    rw [hL, hR]
    exact hprev i h
  · have hR : psEntry J B s prev start (i + 1)
        = wSite J B s (i + 1) + psEntry J B s prev start i := by
      simp [psEntry, h]
    rw [hR]
    have : 0 < wSite J B s (i + 1) := by simp [wSite, Real.exp_pos]
    linarith

/-- Shared facts about _count_partial_sums: for any start index inside the
chain and any previous array that is strictly increasing and positive below
start, the recomputed array is strictly increasing at every pair of
consecutive indices and the total rate read by _count_r is positive. -/
theorem rateTable_facts (J B : ℝ) (s : List ℤ) (prev : List ℝ) (start : ℕ)
    (hstart : start < s.length)
    (hprev : ∀ i, i + 1 < start → prev.getD i 0 < prev.getD (i + 1) 0)
    (hprev0 : 0 < start → 0 < prev.getD 0 0) :
    (∀ i, i + 1 < s.length →
        (countPartialSums J B s prev start).getD i 0
          < (countPartialSums J B s prev start).getD (i + 1) 0)
    ∧ 0 < countR (countPartialSums J B s prev start) := by
  constructor
  · intro i h
    rw [countPartialSums_getD J B s prev start i (by omega),
      countPartialSums_getD J B s prev start (i + 1) h]
    exact psEntry_strict J B s prev start hprev i
  · unfold countR
    rw [countPartialSums_length,
      countPartialSums_getD J B s prev start (s.length - 1) (by omega)]
    exact psEntry_pos J B s prev start hprev hprev0 (s.length - 1)

/-- C7: after the initial full build (start = 0, no assumptions on the
previous array) and after every incremental per-event update (previous array
strictly increasing and positive below the start index), the RateTable is
strictly increasing at every index and the total rate R, its last entry, is
positive. -/
theorem c7_rate_table_strictly_increasing (J B : ℝ) (s : List ℤ)
    (prev : List ℝ) (start : ℕ)
    (hstart : start < s.length)
    (hprev : ∀ i, i + 1 < start → prev.getD i 0 < prev.getD (i + 1) 0)
    (hprev0 : 0 < start → 0 < prev.getD 0 0) :
    (∀ i, i + 1 < s.length →
        (countPartialSums J B s prev start).getD i 0
          < (countPartialSums J B s prev start).getD (i + 1) 0)
    ∧ 0 < countR (countPartialSums J B s prev start) :=
  rateTable_facts J B s prev start hstart hprev hprev0

/-- C7 witness: the full build for a concrete two-site chain. -/
theorem c7_rate_table_strictly_increasing_witness :
    (0 < ([1, -1] : List ℤ).length)
    ∧ ((∀ i, i + 1 < ([1, -1] : List ℤ).length →
          (countPartialSums 1 0 [1, -1] [] 0).getD i 0
            < (countPartialSums 1 0 [1, -1] [] 0).getD (i + 1) 0)
        ∧ 0 < countR (countPartialSums 1 0 [1, -1] [] 0)) :=
  ⟨by decide,
    c7_rate_table_strictly_increasing 1 0 [1, -1] [] 0 (by decide)
      (by intro i h; omega) (by intro h; omega)⟩

/-- A last-overwrite scan whose every firing index equals j keeps an
accumulator that already holds j. -/
theorem foldl_choice_stable {Q : ℕ → Prop} [DecidablePred Q] (j : ℕ) :
    ∀ l : List ℕ, (∀ i ∈ l, Q i → i = j) →
      l.foldl (fun acc i => if Q i then some i else acc) (some j) = some j := by
  intro l
  induction l with
  | nil => intro _; rfl
  | cons a l ih =>
    intro h
    by_cases ha : Q a
    · have haj : a = j := h a (by simp) ha
      subst haj
      simp only [List.foldl_cons, if_pos ha]
      exact ih fun i hi => h i (by simp [hi])
    · simp only [List.foldl_cons, if_neg ha]
      exact ih fun i hi => h i (by simp [hi])

/-- A last-overwrite scan in which j fires and every firing index equals j
returns j whatever the initial accumulator was. -/
theorem foldl_choice_eq {Q : ℕ → Prop} [DecidablePred Q] (j : ℕ) :
    ∀ (l : List ℕ) (init : Option ℕ), j ∈ l → Q j →
      (∀ i ∈ l, Q i → i = j) →
      l.foldl (fun acc i => if Q i then some i else acc) init = some j := by
  intro l
  induction l with
  | nil => intro init h; simp at h
  | cons a l ih =>
    intro init hmem hQ huniq
    by_cases ha : Q a
    · have haj : a = j := huniq a (by simp) ha
      subst haj
      simp only [List.foldl_cons, if_pos ha]
      exact foldl_choice_stable a l fun i hi => huniq i (by simp [hi])
    · simp only [List.foldl_cons, if_neg ha]
      have hj : j ∈ l := by
        rcases List.mem_cons.mp hmem with h | h
        · exact absurd (h ▸ hQ) ha
        · exact h
      exact ih init hj hQ fun i hi => huniq i (by simp [hi])

/-- Entries of a table with strictly increasing consecutive entries are
monotone over indices within bounds. -/
theorem table_getD_mono (t : List ℝ)
    (hmono : ∀ i, i + 1 < t.length → t.getD i 0 < t.getD (i + 1) 0) :
    ∀ a b, a ≤ b → b < t.length → t.getD a 0 ≤ t.getD b 0 := by
  intro a b hab
  induction hab with
  | refl => exact fun _ => le_refl _
  | @step m h ih =>
    intro hb
    exact (ih (by omega)).trans (hmono m hb).le

/-- The _choose_molecule scan on a strictly increasing table, applied to a
target strictly between 0 and the last entry, returns the unique index j with
RateTable[j-1] <= x < RateTable[j] (RateTable[-1] read as 0), which is also
the first such index, for every initial chosen value. -/
theorem chooseMolecule_spec (t : List ℝ) (x : ℝ) (init : Option ℕ)
    (hmono : ∀ i, i + 1 < t.length → t.getD i 0 < t.getD (i + 1) 0)
    (hlen : 0 < t.length)
    (hx0 : 0 < x)
    (hxlt : x < t.getD (t.length - 1) 0) :
    ∃ j, chooseMolecule t x init = some j
      ∧ j < t.length
      ∧ prevEntry t j ≤ x
      ∧ x < t.getD j 0
      ∧ ∀ i < j, ¬(prevEntry t i ≤ x ∧ x < t.getD i 0) := by
  classical
  have hPex : ∃ i, x < t.getD i 0 := ⟨t.length - 1, hxlt⟩
  obtain ⟨j, hPj, hmin⟩ : ∃ j, x < t.getD j 0 ∧ ∀ i < j, ¬ x < t.getD i 0 :=
    ⟨Nat.find hPex, Nat.find_spec hPex, fun i hi => Nat.find_min hPex hi⟩
  have hle_any : ∀ m, x < t.getD m 0 → j ≤ m := fun m hm =>
    not_lt.mp fun hlt => hmin m hlt hm
  have hjle : j ≤ t.length - 1 := hle_any (t.length - 1) hxlt
  have hjlt : j < t.length := by omega
  have hlow : prevEntry t j ≤ x := by
    by_cases hj0 : j = 0
    · unfold prevEntry
      rw [if_pos hj0]
      exact hx0.le
    · unfold prevEntry
      rw [if_neg hj0]
      exact not_lt.mp (hmin (j - 1) (by omega))
  have hfold : chooseMolecule t x init
      = (List.range t.length).foldl
          (fun acc i => if fireCond t x i then some i else acc) init := by
    unfold chooseMolecule
    apply List.foldl_ext
    intro acc i _
    by_cases h0 : i = 0
    · subst h0
      by_cases h1 : x < t.getD 0 0
      · have hQ0 : fireCond t x 0 := by
          unfold fireCond
          rw [if_pos rfl]
          exact Or.inl h1
        rw [if_pos rfl, if_pos h1, if_pos hQ0]
      · have h2 : ¬(t.getD (t.length - 1) 0 ≤ x ∧ x < t.getD 0 0) :=
          fun hc => h1 hc.2
        have hQ0 : ¬ fireCond t x 0 := by
          unfold fireCond
          rw [if_pos rfl]
          rintro (h | h)
          · exact h1 h
          · exact h2 h
        rw [if_pos rfl, if_neg h1, if_neg h2, if_neg hQ0]
    · by_cases h2 : t.getD (i - 1) 0 ≤ x ∧ x < t.getD i 0
      · have hQ : fireCond t x i := by
          unfold fireCond
          rw [if_neg h0]
          exact h2
        rw [if_neg h0, if_pos h2, if_pos hQ]
      · have hQ : ¬ fireCond t x i := by
          unfold fireCond
          rw [if_neg h0]
          exact h2
        rw [if_neg h0, if_neg h2, if_neg hQ]
  have hQj : fireCond t x j := by
    by_cases hj0 : j = 0
    · rw [hj0]
      unfold fireCond
      rw [if_pos rfl]
      exact Or.inl (hj0 ▸ hPj)
    · unfold fireCond
      rw [if_neg hj0]
      exact ⟨not_lt.mp (hmin (j - 1) (by omega)), hPj⟩
  have huniq : ∀ i ∈ List.range t.length, fireCond t x i → i = j := by
    intro i hi hQ
    have hilt : i < t.length := List.mem_range.mp hi
    by_cases h0 : i = 0
    · subst h0
      unfold fireCond at hQ
      rw [if_pos rfl] at hQ
      rcases hQ with h | h
      · have : j ≤ 0 := hle_any 0 h
        omega
      · exact absurd hxlt (not_lt.mpr h.1)
    · unfold fireCond at hQ
      rw [if_neg h0] at hQ
      obtain ⟨hge, hlt⟩ := hQ
      have hji : j ≤ i := hle_any i hlt
      by_contra hne
      have hjlt2 : j < i := by omega
      have : t.getD j 0 ≤ t.getD (i - 1) 0 :=
        table_getD_mono t hmono j (i - 1) (by omega) (by omega)
      linarith
  refine ⟨j, ?_, hjlt, hlow, hPj, ?_⟩
  · rw [hfold]
    exact foldl_choice_eq j (List.range t.length) init
      (List.mem_range.mpr hjlt) hQj huniq
  · intro i hij hinv
    exact hmin i hij hinv.2

/-- C6: at every event, with the RateTable produced by _count_partial_sums,
p strictly inside (0,1) and R the total rate read by _count_r, the scan of
_choose_molecule returns an index j with RateTable[j-1] <= p*R < RateTable[j]
(RateTable[-1] read as 0), and j is the first index satisfying that
inequality; this holds for every previously chosen value held in the
accumulator, so the last-overwrite scan coincides with the unique first
match. -/
theorem c6_selection_invariant (J B : ℝ) (s : List ℤ) (prev : List ℝ)
    (start : ℕ) (p : ℝ) (init : Option ℕ) (t : List ℝ) (r : ℝ)
    (hstart : start < s.length)
    (hprev : ∀ i, i + 1 < start → prev.getD i 0 < prev.getD (i + 1) 0)
    (hprev0 : 0 < start → 0 < prev.getD 0 0)
    (ht : t = countPartialSums J B s prev start)
    (hr : r = countR t)
    (hp0 : 0 < p) (hp1 : p < 1) :
    ∃ j, chooseMolecule t (p * r) init = some j
      ∧ j < t.length
      ∧ prevEntry t j ≤ p * r
      ∧ p * r < t.getD j 0
      ∧ ∀ i < j, ¬(prevEntry t i ≤ p * r ∧ p * r < t.getD i 0) := by
  obtain ⟨hmono, hrpos⟩ := rateTable_facts J B s prev start hstart hprev hprev0
  have hlen : t.length = s.length := by
    rw [ht, countPartialSums_length]
  have hmono' : ∀ i, i + 1 < t.length → t.getD i 0 < t.getD (i + 1) 0 := by
    intro i h
    rw [ht]
    exact hmono i (by omega)
  have hrval : r = t.getD (t.length - 1) 0 := by rw [hr]; rfl
  have hrpos' : 0 < r := by rw [hr, ht]; exact hrpos
  have hx0 : 0 < p * r := mul_pos hp0 hrpos'
  have hxlt : p * r < t.getD (t.length - 1) 0 := by
    rw [← hrval]
    nlinarith
  exact chooseMolecule_spec t (p * r) init hmono' (by omega) hx0 hxlt

/-- C6 witness: a concrete full build over a two-site chain with p = 1/2. -/
theorem c6_selection_invariant_witness :
    (0 < ([1, -1] : List ℤ).length)
    ∧ (0 : ℝ) < 1 / 2
    ∧ (1 : ℝ) / 2 < 1
    ∧ ∃ j, chooseMolecule (countPartialSums 1 0 [1, -1] [] 0)
          (1 / 2 * countR (countPartialSums 1 0 [1, -1] [] 0)) none = some j
        ∧ j < (countPartialSums 1 0 [1, -1] [] 0).length
        ∧ prevEntry (countPartialSums 1 0 [1, -1] [] 0) j
            ≤ 1 / 2 * countR (countPartialSums 1 0 [1, -1] [] 0)
        ∧ 1 / 2 * countR (countPartialSums 1 0 [1, -1] [] 0)
            < (countPartialSums 1 0 [1, -1] [] 0).getD j 0
        ∧ ∀ i < j,
            ¬(prevEntry (countPartialSums 1 0 [1, -1] [] 0) i
                ≤ 1 / 2 * countR (countPartialSums 1 0 [1, -1] [] 0)
              ∧ 1 / 2 * countR (countPartialSums 1 0 [1, -1] [] 0)
                < (countPartialSums 1 0 [1, -1] [] 0).getD i 0) :=
  ⟨by decide, by norm_num, by norm_num,
    c6_selection_invariant 1 0 [1, -1] [] 0 (1 / 2) none
      (countPartialSums 1 0 [1, -1] [] 0)
      (countR (countPartialSums 1 0 [1, -1] [] 0))
      (by decide) (by intro i h; omega) (by intro h; omega) rfl rfl
      (by norm_num) (by norm_num)⟩

/-- C8: for p strictly inside (0,1) and positive total rate R, the waiting
time computed by _count_delta_t is exactly (1/R) * floor(ln(1/p)) (the
toward-zero truncation of Python int() coincides with the floor because
ln(1/p) is nonnegative there); it is nonnegative, so _add_to_t never
decreases the clock; and it vanishes exactly when floor(ln(1/p)) = 0, that
is, exactly when p > e^(-1). -/
theorem c8_waiting_time_floor_log (r p t : ℝ)
    (hp0 : 0 < p) (hp1 : p < 1) (hr : 0 < r) :
    countDeltaT r p = 1 / r * ((⌊Real.log (1 / p)⌋ : ℤ) : ℝ)
    ∧ 0 ≤ countDeltaT r p
    ∧ t ≤ addToT t (countDeltaT r p)
    ∧ (countDeltaT r p = 0 ↔ ⌊Real.log (1 / p)⌋ = 0)
    ∧ (⌊Real.log (1 / p)⌋ = 0 ↔ Real.exp (-1) < p) := by
  have hinv : (0 : ℝ) < 1 / p := by positivity
  have he : (0 : ℝ) < Real.exp 1 := Real.exp_pos 1
  have hlog0 : 0 ≤ Real.log (1 / p) := by
    apply Real.log_nonneg
    rw [le_div_iff hp0]
    linarith
  have htrunc : pyInt (Real.log (1 / p)) = ⌊Real.log (1 / p)⌋ := by
    unfold pyInt
    rw [if_pos hlog0]
  have hfloor0 : 0 ≤ ⌊Real.log (1 / p)⌋ := Int.floor_nonneg.mpr hlog0
  have heq : countDeltaT r p = 1 / r * ((⌊Real.log (1 / p)⌋ : ℤ) : ℝ) := by
    unfold countDeltaT
    rw [htrunc]
  have hnonneg : 0 ≤ countDeltaT r p := by
    rw [heq]
    apply mul_nonneg (by positivity)
    exact_mod_cast hfloor0
  refine ⟨heq, hnonneg, ?_, ?_, ?_⟩
  · unfold addToT
    linarith
  · rw [heq]
    constructor
    · intro h
      have h1r : 1 / r ≠ 0 := by positivity
      have := (mul_eq_zero.mp h).resolve_left h1r
      exact_mod_cast this
    · intro h
      rw [h]
      simp
  · rw [Int.floor_eq_zero_iff, Set.mem_Ico]
    constructor
    · intro h
      have hpe : 1 / p < Real.exp 1 := (Real.log_lt_iff_lt_exp hinv).mp h.2
      have h2 : 1 < p * Real.exp 1 := by
        have := mul_lt_mul_of_pos_left hpe hp0
        rwa [mul_one_div, div_self (ne_of_gt hp0)] at this
      rw [Real.exp_neg, inv_eq_one_div, div_lt_iff he]
      exact h2
    · intro h
      refine ⟨hlog0, ?_⟩
      rw [Real.exp_neg, inv_eq_one_div, div_lt_iff he] at h
      rw [Real.log_lt_iff_lt_exp hinv, div_lt_iff hp0, mul_comm]
      exact h

/-- C8 witness: p = 1/2, R = 1, clock at 0. -/
theorem c8_waiting_time_floor_log_witness :
    (0 : ℝ) < 1 / 2
    ∧ (1 : ℝ) / 2 < 1
    ∧ (0 : ℝ) < 1
    ∧ (countDeltaT 1 (1 / 2) = 1 / 1 * ((⌊Real.log (1 / (1 / 2))⌋ : ℤ) : ℝ)
        ∧ 0 ≤ countDeltaT 1 (1 / 2)
        ∧ (0 : ℝ) ≤ addToT 0 (countDeltaT 1 (1 / 2))
        ∧ (countDeltaT 1 (1 / 2) = 0 ↔ ⌊Real.log (1 / (1 / 2))⌋ = 0)
        ∧ (⌊Real.log (1 / (1 / 2))⌋ = 0 ↔ Real.exp (-1) < 1 / 2)) :=
  ⟨by norm_num, by norm_num, by norm_num,
    c8_waiting_time_floor_log 1 (1 / 2) 0 (by norm_num) (by norm_num)
      (by norm_num)⟩

/-- The local energy of site 0 on the all-up three-site ring with J = 1 and
B = 0 is -1. -/
theorem uSite_old_state : uSite 1 0 [1, 1, 1] 0 = -1 := by
  have g0 : ([1, 1, 1] : List ℤ).getD 0 0 = 1 := by decide
  have g1 : ([1, 1, 1] : List ℤ).getD 1 0 = 1 := by decide
  have g2 : ([1, 1, 1] : List ℤ).getD 2 0 = 1 := by decide
  unfold uSite sg
  norm_num [g0, g1, g2]

/-- The local energy of site 0 on the ring [1, 1, -1] with J = 1 and B = 0 is
0: flipping site 2, the ring neighbor of site 0, changed it. -/
theorem uSite_new_state : uSite 1 0 [1, 1, -1] 0 = 0 := by
  have g0 : ([1, 1, -1] : List ℤ).getD 0 0 = 1 := by decide
  have g1 : ([1, 1, -1] : List ℤ).getD 1 0 = 1 := by decide
  have g2 : ([1, 1, -1] : List ℤ).getD 2 0 = -1 := by decide
  unfold uSite sg
  norm_num [g0, g1, g2]

/-- C1: the claim states that the incremental recomputation from the index
adjacent to the resampled site always reproduces the full rebuild, also for
j = N-1.  It does not: after the event resampled site 2 = N-1 of the chain
[1,1,1] to -1 (J = 1, B = 0), the incremental update starts at index 1 and
leaves entry 0 at the stale weight exp(-1) computed from the old state, while
a full rebuild of the new state [1,1,-1] puts exp(0) = 1 there, because site
0's ring neighborhood contains site N-1. -/
theorem c1_incremental_update_misses_ring_neighbor :
    countPartialSums 1 0 [1, 1, -1] (countPartialSums 1 0 [1, 1, 1] [] 0) 1
      ≠ countPartialSums 1 0 [1, 1, -1] [] 0 := by
  intro h
  have h0 := congrArg (fun l : List ℝ => l.getD 0 0) h
  simp only at h0
  have hL : (countPartialSums 1 0 [1, 1, -1]
      (countPartialSums 1 0 [1, 1, 1] [] 0) 1).getD 0 0 = Real.exp (-1) := by
    rw [countPartialSums_getD 1 0 [1, 1, -1]
      (countPartialSums 1 0 [1, 1, 1] [] 0) 1 0 (by decide)]
    have hstale : psEntry 1 0 [1, 1, -1] (countPartialSums 1 0 [1, 1, 1] [] 0) 1 0
        = (countPartialSums 1 0 [1, 1, 1] [] 0).getD 0 0 := by
      simp [psEntry]
    rw [hstale, countPartialSums_getD 1 0 [1, 1, 1] [] 0 0 (by decide)]
    have hfull : psEntry 1 0 [1, 1, 1] [] 0 0 = wSite 1 0 [1, 1, 1] 0 := by
      simp [psEntry]
    rw [hfull]
    unfold wSite
    rw [uSite_old_state]
  have hR : (countPartialSums 1 0 [1, 1, -1] [] 0).getD 0 0 = Real.exp 0 := by
    rw [countPartialSums_getD 1 0 [1, 1, -1] [] 0 0 (by decide)]
    have hfull : psEntry 1 0 [1, 1, -1] [] 0 0 = wSite 1 0 [1, 1, -1] 0 := by
      simp [psEntry]
    rw [hfull]
    unfold wSite
    rw [uSite_new_state]
  rw [hL, hR] at h0
  have : (-1 : ℝ) = 0 := Real.exp_eq_exp.mp h0
  norm_num at this

/-- e is greater than 2. -/
theorem two_lt_exp_one : (2 : ℝ) < Real.exp 1 := by
  have h27 : (2.7182818283 : ℝ) < Real.exp 1 := Real.exp_one_gt_d9
  have h2 : (2 : ℝ) < 2.7182818283 := by norm_num
  linarith

/-- With p = 1/2 the truncated logarithm is 0, so the waiting time vanishes
for every rate. -/
theorem countDeltaT_half (r : ℝ) : countDeltaT r (1 / 2) = 0 := by
  have h2 : (1 : ℝ) / (1 / 2) = 2 := by norm_num
  have hlog0 : 0 ≤ Real.log 2 := Real.log_nonneg one_le_two
  have hloglt : Real.log 2 < 1 := by
    rw [Real.log_lt_iff_lt_exp (by norm_num)]
    exact two_lt_exp_one
  have hfloor : ⌊Real.log 2⌋ = 0 :=
    Int.floor_eq_zero_iff.mpr (Set.mem_Ico.mpr ⟨hlog0, hloglt⟩)
  unfold countDeltaT pyInt
  rw [h2, if_pos hlog0, hfloor]
  simp

/-- One event with p = 1/2 on a two-site chain always succeeds, keeps the
chain at length 2, keeps the clock at 0, and leaves a chosen index whose next
incremental start index is 0. -/
theorem c10_step (st : SimState)
    (hlen : st.state.length = 2)
    (ht : st.t = 0)
    (hsi : startIndex st.chosen = 0) :
    ∃ st2, simStep 1 0 (1 / 2) 1 st = some st2
      ∧ st2.state.length = 2 ∧ st2.t = 0 ∧ startIndex st2.chosen = 0 := by
  obtain ⟨hmono, hrpos⟩ :=
    rateTable_facts 1 0 st.state st.table 0 (by omega)
      (by intro i h; omega) (by intro h; omega)
  set table := countPartialSums 1 0 st.state st.table 0 with htab
  have hlent : table.length = 2 := by
    rw [htab, countPartialSums_length, hlen]
  have hmono' : ∀ i, i + 1 < table.length →
      table.getD i 0 < table.getD (i + 1) 0 := by
    intro i hi
    exact hmono i (by omega)
  have hx0 : 0 < 1 / 2 * countR table :=
    mul_pos (by norm_num) hrpos
  have hxlt : 1 / 2 * countR table < table.getD (table.length - 1) 0 := by
    have hcr : countR table = table.getD (table.length - 1) 0 := rfl
    rw [← hcr]
    linarith
  obtain ⟨j, hcm, hjlt, _, _, _⟩ :=
    chooseMolecule_spec table (1 / 2 * countR table) st.chosen hmono'
      (by omega) hx0 hxlt
  have hsim : simStep 1 0 (1 / 2) 1 st = some
      { state := changeSpin st.state j 1
        table := table
        chosen := some j
        t := addToT st.t (countDeltaT (countR table) (1 / 2))
        mt := st.mt + (((changeSpin st.state j 1).sum : ℤ) : ℝ)
            * countDeltaT (countR table) (1 / 2)
        jt := st.jt + interSum 1 (changeSpin st.state j 1)
            * countDeltaT (countR table) (1 / 2) } := by
    simp only [simStep, hsi, ← htab, hcm]
  refine ⟨_, hsim, ?_, ?_, ?_⟩
  · simp [changeSpin, hlen]
  · simp only [addToT, ht, countDeltaT_half, add_zero]
  · rw [hlent] at hjlt
    show (if j = 0 then 0 else j - 1) = 0
    split
    · rfl
    · omega

/-- Iterating events with p = 1/2 keeps producing states and keeps the clock
at 0. -/
theorem c10_run (n : ℕ) : ∀ (k : ℕ) (st : SimState),
    st.state.length = 2 → st.t = 0 → startIndex st.chosen = 0 →
    ∃ st2, runSim 1 0 (fun _ => 1 / 2) (fun _ => 1) k n st = some st2
      ∧ st2.t = 0 := by
  induction n with
  | zero => exact fun k st _ h2 _ => ⟨st, rfl, h2⟩
  | succ n ih =>
    intro k st h1 h2 h3
    obtain ⟨st2, hstep, hl2, ht2, hs2⟩ := c10_step st h1 h2 h3
    obtain ⟨st3, hrun, ht3⟩ := ih (k + 1) st2 hl2 ht2 hs2
    refine ⟨st3, ?_, ht3⟩
    simp only [runSim, hstep]
    exact hrun

/-- C10: there is a sequence of draws, each strictly inside (0,1) and above
e^(-1) (here constantly 1/2), for which every event of a full 10*N run on a
two-site chain has waiting time 0: the accumulated clock is 0 after all
events and the final report divides both accumulated integrals by zero. -/
theorem c10_all_zero_delta_t_run_divides_by_zero :
    ∃ ps : ℕ → ℝ,
      (∀ k, 0 < ps k ∧ ps k < 1 ∧ Real.exp (-1) < ps k)
      ∧ ∃ st, runSim 1 0 ps (fun _ => 1) 0 (10 * 2) (initSimState [1, 1])
            = some st
          ∧ st.t = 0
          ∧ report st = (st.jt / 0, st.mt / 0) := by
  refine ⟨fun _ => 1 / 2, ?_, ?_⟩
  · intro k
    refine ⟨by norm_num, by norm_num, ?_⟩
    rw [Real.exp_neg, inv_eq_one_div]
    exact one_div_lt_one_div_of_lt (by norm_num) two_lt_exp_one
  · obtain ⟨st, hrun, ht⟩ :=
      c10_run (10 * 2) 0 (initSimState [1, 1]) rfl rfl rfl
    refine ⟨st, hrun, ht, ?_⟩
    unfold report
    rw [ht]

end Kmc
